import Mathlib

/-!
# Verification of the envedit snapshot/parse/diff core

Shallow embedding of the core data structures and algorithms of
`src/main.rs` (structs `EnvVar`, `EnvVars`, `DiffEntry`, the two
`TryFrom` constructors, and the `diff` function), together with proofs
of the specified properties.

Modeling conventions:
* Rust `String` values are modeled as `List Char`.  Rust compares
  `String`s by UTF-8 byte order; for valid UTF-8 this coincides with
  lexicographic comparison of the code points, i.e. with the
  lexicographic `LinearOrder` on `List Char`.
* Fallible operations return `Except EnvEditErr _`; the `?` operator of
  the source corresponds to the explicit `match` on the intermediate
  result.  The single Rust error type `EnvEditError { msg: String }` is
  modeled as an inductive with one constructor per distinct message
  template, carrying the formatted datum (the line index).  The I/O
  failure branch of the reader is unreachable in the pure model.
* A Rust panic (the `unwrap` of an absent `new_value` inside `diff`) is
  modeled by `diff` returning `none`.
* `Vec::sort_by` is a stable sort by the given comparison;
  `List.insertionSort` is likewise stable for the same ordering, so it
  produces the identical list.
* Rust `HashMap` iteration order is unspecified, but the entry list is
  sorted by name before being returned and all keys in the map are
  distinct, so every iteration order yields the same final result; the
  map is modeled as an association list whose `insert` overwrites in
  place.
-/

namespace EnvEdit

/-- Rust strings, modeled as lists of characters. -/
abbrev Str := List Char

/-- The error type `EnvEditError`, one constructor per message template of
the source (`"Variable name contains illegal character '='"` and
`"Error reading file: line {index} is malformed; missing '=' separator"`). -/
inductive EnvEditErr where
  | nameValidation
  | malformedLine (index : Nat)
deriving DecidableEq, Repr

instance {ε α : Type} [DecidableEq ε] [DecidableEq α] : DecidableEq (Except ε α) := fun a b =>
  match a, b with
  | .error e, .error e' =>
    if h : e = e' then .isTrue (by rw [h]) else .isFalse (fun hh => by cases hh; exact h rfl)
  | .ok x, .ok y =>
    if h : x = y then .isTrue (by rw [h]) else .isFalse (fun hh => by cases hh; exact h rfl)
  | .error _, .ok _ => .isFalse (fun hh => by cases hh)
  | .ok _, .error _ => .isFalse (fun hh => by cases hh)

/-- Rust `struct EnvVar { name: String, value: String }`. -/
structure EnvVar where
  name : Str
  value : Str
deriving DecidableEq, Repr

/-- Rust `EnvVar::validate_name`: fails iff the name contains `'='`
(`name.find('=')` returns `Some` exactly when `'='` occurs in `name`). -/
def EnvVar.validateName (name : Str) : Except EnvEditErr Unit :=
  if '=' ∈ name then .error .nameValidation else .ok ()

/-- Rust `EnvVar::new`: validate the name, then build the record. -/
def EnvVar.new (name value : Str) : Except EnvEditErr EnvVar :=
  match EnvVar.validateName name with
  | .error e => .error e
  | .ok _ => .ok ⟨name, value⟩

/-- The name ordering used by `EnvVars::sort` and the final sort of
`diff`: `a.name.cmp(&b.name)` compares byte-wise, which on valid UTF-8
agrees with the lexicographic order on `List Char`. -/
def nameLe (a b : EnvVar) : Prop := a.name ≤ b.name

instance : DecidableRel nameLe :=
  fun a b => inferInstanceAs (Decidable (a.name ≤ b.name))

instance : IsTotal EnvVar nameLe := ⟨fun a b => le_total a.name b.name⟩

instance : IsTrans EnvVar nameLe := ⟨fun _ _ _ h h' => le_trans h h'⟩

/-- Rust `EnvVars::sort`, i.e. `self.0.sort_by(|a, b| a.name.cmp(&b.name))`.
Both `Vec::sort_by` and `insertionSort` are stable sorts with respect to
the same ordering, hence produce the same list. -/
def EnvVars.sort (l : List EnvVar) : List EnvVar := List.insertionSort nameLe l

/-- The record-building loop of `TryFrom<&mut dyn Iterator<Item = (String,
String)>>`: one `EnvVar::new` per pair, pushed in order, aborting on the
first error. -/
def buildVars : List (Str × Str) → Except EnvEditErr (List EnvVar)
  | [] => .ok []
  | (n, v) :: rest =>
    match EnvVar.new n v with
    | .error e => .error e
    | .ok var =>
      match buildVars rest with
      | .error e => .error e
      | .ok vars => .ok (var :: vars)

/-- Rust `EnvVars::try_from` for an iterator of pairs: build all records, then
sort by name. -/
def EnvVars.tryFromPairs (pairs : List (Str × Str)) : Except EnvEditErr (List EnvVar) :=
  match buildVars pairs with
  | .error e => .error e
  | .ok vars => .ok (EnvVars.sort vars)

/-- Rust `str::split(sep)`: splits at every occurrence of the separator;
the result is never empty ("".split never yields zero segments). -/
def splitChar (sep : Char) : Str → List Str
  | [] => [[]]
  | c :: rest =>
    match splitChar sep rest with
    | [] => [[c]]
    | s :: ss => if c = sep then [] :: s :: ss else (c :: s) :: ss

/-- The CRLF handling of `BufRead::lines`: a line that was terminated by
`'\n'` additionally loses a trailing `'\r'`. -/
def stripCR (l : Str) : Str := if l.getLast? = some '\r' then l.dropLast else l

/-- Rust `BufRead::lines` over the whole input text: physical lines are the
segments between `'\n'` characters; a trailing segment after a final
`'\n'` (equivalently, at the end of an empty input) is not a line; every
`'\n'`-terminated line is stripped of a trailing `'\r'`, an unterminated
final line is not. -/
def rustLines (t : Str) : List Str :=
  if t = [] then []
  else
    let parts := splitChar '\n' t
    if parts.getLast? = some [] then
      parts.dropLast.map stripCR
    else
      parts.dropLast.map stripCR ++ [parts.getLast?.getD []]

/-- One iteration of the reading loop of `TryFrom<&mut dyn Read>`:
`let v: Vec<&str> = s.split('=').collect();` then the `v.len() < 2`
check (the two-segment pattern matches exactly when `v.len() >= 2`),
then `EnvVar::new(v[0], v[1])`. -/
def parseLine (index : Nat) (line : Str) : Except EnvEditErr EnvVar :=
  match splitChar '=' line with
  | s0 :: s1 :: _ => EnvVar.new s0 s1
  | _ => .error (.malformedLine index)

/-- The enumerated reading loop: parse each line with its 0-based index,
aborting on the first failure. -/
def parseLines (index : Nat) : List Str → Except EnvEditErr (List EnvVar)
  | [] => .ok []
  | l :: rest =>
    match parseLine index l with
    | .error e => .error e
    | .ok var =>
      match parseLines (index + 1) rest with
      | .error e => .error e
      | .ok vars => .ok (var :: vars)

/-- Rust `EnvVars::try_from` for a reader: enumerate the lines of the text,
parse them, then sort by name. -/
def EnvVars.tryFromText (t : Str) : Except EnvEditErr (List EnvVar) :=
  match parseLines 0 (rustLines t) with
  | .error e => .error e
  | .ok vars => .ok (EnvVars.sort vars)

/-- Rust `write_temp_file`: one `writeln!` of `name=value`
per record, in order. -/
def toText (vars : List EnvVar) : Str :=
  (vars.map fun v => v.name ++ '=' :: v.value ++ ['\n']).flatten

/-- Rust `enum DiffState`. -/
inductive DiffState where
  | unchanged
  | modified
  | added
  | deleted
deriving DecidableEq, Repr

/-- Rust `struct DiffEntry`. -/
structure DiffEntry where
  name : Str
  state : DiffState
  old_value : Option Str
  new_value : Option Str
deriving DecidableEq, Repr

/-- Rust `HashMap` lookup (`map.get_mut(&k)`), on the association-list model. -/
def alGet (k : Str) : List (Str × DiffEntry) → Option DiffEntry
  | [] => none
  | (k', e) :: rest => if k' = k then some e else alGet k rest

/-- Rust `HashMap::insert` (also the write-back of a `get_mut` update): replace
the entry at an existing key, otherwise add a new one. -/
def alInsert (k : Str) (e : DiffEntry) : List (Str × DiffEntry) → List (Str × DiffEntry)
  | [] => [(k, e)]
  | (k', e') :: rest => if k' = k then (k, e) :: rest else (k', e') :: alInsert k e rest

/-- First loop of `diff`: every record of `new` is inserted as `Added`
with no old value; a later occurrence of a name overwrites an earlier
one. -/
def diffNewLoop (m : List (Str × DiffEntry)) : List EnvVar → List (Str × DiffEntry)
  | [] => m
  | v :: rest =>
    diffNewLoop (alInsert v.name ⟨v.name, .added, none, some v.value⟩ m) rest

/-- Second loop of `diff`: a record of `old` whose name is already mapped
updates `old_value` and reclassifies by comparing with
`entry.new_value.as_deref().unwrap()` — if that `new_value` is absent the
`unwrap` panics, modeled by `none`; an unmapped name is inserted as
`Deleted`. -/
def diffOldLoop (m : List (Str × DiffEntry)) : List EnvVar → Option (List (Str × DiffEntry))
  | [] => some m
  | v :: rest =>
    match alGet v.name m with
    | some e =>
      match e.new_value with
      | none => none
      | some nv =>
        diffOldLoop
          (alInsert v.name
            { e with old_value := some v.value,
                     state := if v.value = nv then .unchanged else .modified } m) rest
    | none =>
      diffOldLoop (alInsert v.name ⟨v.name, .deleted, some v.value, none⟩ m) rest

/-- The entry ordering of the final `entries.sort_by(|a, b|
a.name.cmp(&b.name))`. -/
def entryLe (a b : DiffEntry) : Prop := a.name ≤ b.name

instance : DecidableRel entryLe :=
  fun a b => inferInstanceAs (Decidable (a.name ≤ b.name))

instance : IsTotal DiffEntry entryLe := ⟨fun a b => le_total a.name b.name⟩

instance : IsTrans DiffEntry entryLe := ⟨fun _ _ _ h h' => le_trans h h'⟩

/-- Rust `fn diff(old: EnvVars, new: EnvVars) -> Vec<DiffEntry>`: build the map
from `new`, fold `old` into it, collect the entries and sort them by
name.  All map keys are distinct, so the sorted entry list does not
depend on the (unspecified) `HashMap` iteration order. -/
def diff (old new : List EnvVar) : Option (List DiffEntry) :=
  match diffOldLoop (diffNewLoop [] new) old with
  | none => none
  | some m => some (List.insertionSort entryLe (m.map Prod.snd))

/-- The names occurring in a variable list, in order. -/
def names (vs : List EnvVar) : List Str := vs.map EnvVar.name

/-- The value of the first record with the given name (the unique record,
when names are distinct). -/
def envLookup (n : Str) : List EnvVar → Option Str
  | [] => none
  | v :: rest => if v.name = n then some v.value else envLookup n rest

/-- The value of the last record with the given name — the occurrence
that wins the map collapse inside `diff`. -/
def lastVal (n : Str) : List EnvVar → Option Str
  | [] => none
  | v :: rest =>
    match lastVal n rest with
    | some w => some w
    | none => if v.name = n then some v.value else none

/-! ## Basic lemmas about record construction -/

theorem envVarNew_ok {n v : Str} (h : '=' ∉ n) : EnvVar.new n v = .ok ⟨n, v⟩ := by
  simp [EnvVar.new, EnvVar.validateName, h]

theorem envVarNew_err {n v : Str} (h : '=' ∈ n) :
    EnvVar.new n v = .error .nameValidation := by
  simp [EnvVar.new, EnvVar.validateName, h]

/-! ## Lemmas about `splitChar` and `parseLine` -/

theorem splitChar_ne_nil (sep : Char) (l : Str) : splitChar sep l ≠ [] := by
  cases l with
  | nil => simp [splitChar]
  | cons c rest =>
    rw [splitChar]
    rcases splitChar sep rest with _ | ⟨s, ss⟩
    · simp
    · by_cases hc : c = sep <;> simp [hc]

theorem splitChar_eq (sep : Char) (l : Str) :
    splitChar sep l = l.takeWhile (· ≠ sep) ::
      (if sep ∈ l then splitChar sep ((l.dropWhile (· ≠ sep)).tail) else []) := by
  induction l with
  | nil => simp [splitChar]
  | cons c rest ih =>
    rw [splitChar]
    rcases hsc : splitChar sep rest with _ | ⟨s, ss⟩
    · exact absurd hsc (splitChar_ne_nil sep rest)
    · by_cases hc : c = sep
      · subst hc
        rw [hsc] at ih
        simp [List.takeWhile_cons, List.dropWhile_cons, hsc]
      · have hmem : (sep ∈ c :: rest) ↔ (sep ∈ rest) :=
          ⟨fun h => (List.mem_cons.mp h).resolve_left (fun h' => absurd h'.symm hc),
           List.mem_cons_of_mem c⟩
        rw [hsc] at ih
        injection ih with ih1 ih2
        change (if c = sep then [] :: s :: ss else (c :: s) :: ss) = _
        rw [if_neg hc, List.takeWhile_cons, List.dropWhile_cons, if_congr hmem rfl rfl]
        simp [ih1, ih2, hc]

theorem splitChar_of_not_mem {sep : Char} {l : Str} (h : sep ∉ l) :
    splitChar sep l = [l] := by
  rw [splitChar_eq, if_neg h, List.takeWhile_eq_self_iff.mpr]
  intro c hc
  simp only [decide_eq_true_eq, ne_eq]
  intro hcs
  exact h (hcs ▸ hc)

theorem splitChar_sep_append {sep : Char} {a : Str} (b : Str) (ha : sep ∉ a) :
    splitChar sep (a ++ sep :: b) = a :: splitChar sep b := by
  induction a with
  | nil =>
    rw [List.nil_append, splitChar]
    rcases hsc : splitChar sep b with _ | ⟨s, ss⟩
    · exact absurd hsc (splitChar_ne_nil sep b)
    · simp
  | cons c arest ih =>
    have hc : c ≠ sep := fun h => ha (h ▸ List.mem_cons_self c arest)
    have ha' : sep ∉ arest := fun h => ha (List.mem_cons_of_mem c h)
    rw [List.cons_append, splitChar, ih ha']
    simp [hc]

theorem parseLine_of_mem {line : Str} (i : Nat) (h : '=' ∈ line) :
    parseLine i line =
      .ok ⟨line.takeWhile (· ≠ '='), ((line.dropWhile (· ≠ '=')).tail).takeWhile (· ≠ '=')⟩ := by
  have h1 := splitChar_eq '=' line
  rw [if_pos h] at h1
  have h2 := splitChar_eq '=' ((line.dropWhile (· ≠ '=')).tail)
  rw [parseLine, h1, h2]
  apply envVarNew_ok
  intro hmem
  have := List.mem_takeWhile_imp hmem
  simp at this

theorem parseLine_of_not_mem {line : Str} (i : Nat) (h : '=' ∉ line) :
    parseLine i line = .error (.malformedLine i) := by
  rw [parseLine, splitChar_of_not_mem h]

/-! ## Claims C7, C4, C10 -/

/-- C7: `EnvVar::new` fails with a `NameValidationError` if and only if
the name contains `'='`; the value is never inspected, so for any name
without `'='` construction succeeds regardless of the value. -/
theorem c7_name_validation (n v : Str) :
    EnvVar.new n v = if '=' ∈ n then .error .nameValidation else .ok ⟨n, v⟩ := by
  by_cases h : '=' ∈ n
  · rw [if_pos h, envVarNew_err h]
  · rw [if_neg h, envVarNew_ok h]

/-- C4: a line containing at least one `'='` is split at every `'='` and
only segments 0 and 1 are kept: the name is the prefix before the first
`'='` and the value is the segment strictly between the first `'='` and
the next `'='` (or the end of the line); everything else is discarded.
In particular the single line `"A=1=2"` parses to the one record
`("A", "1")`. -/
theorem c4_lossy_split :
    (∀ (i : Nat) (line : Str), '=' ∈ line →
      parseLine i line =
        .ok ⟨line.takeWhile (· ≠ '='),
             ((line.dropWhile (· ≠ '=')).tail).takeWhile (· ≠ '=')⟩) ∧
    EnvVars.tryFromText ['A', '=', '1', '=', '2', '\n'] = .ok [⟨['A'], ['1']⟩] :=
  ⟨fun i _ h => parseLine_of_mem i h, by decide⟩

/-- Witness for C4 at the line `"A=1=2"`. -/
theorem c4_lossy_split_witness :
    ('=' ∈ (['A', '=', '1', '=', '2'] : Str)) ∧
      parseLine 0 ['A', '=', '1', '=', '2'] = .ok ⟨['A'], ['1']⟩ :=
  ⟨by decide, c4_lossy_split.1 0 _ (by decide)⟩

/-- C10: the empty input text has zero physical lines, and parsing it
succeeds with the empty variable set. -/
theorem c10_empty_text : EnvVars.tryFromText [] = .ok [] := rfl

/-! ## Lemmas about `rustLines` -/

theorem rustLines_eq {t : Str} (ht : t ≠ []) :
    rustLines t = (splitChar '\n' t).dropLast.map stripCR ++
      (if (splitChar '\n' t).getLast? = some [] then []
       else [((splitChar '\n' t).getLast?).getD []]) := by
  simp only [rustLines, if_neg ht]
  by_cases h : (splitChar '\n' t).getLast? = some []
  · rw [if_pos h, if_pos h, List.append_nil]
  · rw [if_neg h, if_neg h]

theorem rustLines_cons_line {line : Str} (h : '\n' ∉ line) (rest : Str) :
    rustLines (line ++ '\n' :: rest) = stripCR line :: rustLines rest := by
  have hne : line ++ '\n' :: rest ≠ [] := by simp
  have hsp : splitChar '\n' (line ++ '\n' :: rest) = line :: splitChar '\n' rest :=
    splitChar_sep_append rest h
  rw [rustLines_eq hne, hsp]
  rcases hsc : splitChar '\n' rest with _ | ⟨p, ps⟩
  · exact absurd hsc (splitChar_ne_nil '\n' rest)
  · rw [List.getLast?_cons_cons, List.dropLast_cons_of_ne_nil (List.cons_ne_nil p ps)]
    by_cases hrest : rest = []
    · subst hrest
      have : p = [] ∧ ps = [] := by
        have : splitChar '\n' ([] : Str) = [[]] := rfl
        rw [this] at hsc
        exact ⟨(List.cons.injEq .. ▸ hsc.symm).1, (List.cons.injEq .. ▸ hsc.symm).2⟩
      obtain ⟨hp, hps⟩ := this
      subst hp; subst hps
      simp [rustLines]
    · rw [rustLines_eq hrest, hsc, List.map_cons, List.cons_append]

/-- A serialized record line `name=value` contains no `'\n'` when neither
field does. -/
theorem no_newline_in_line {v : EnvVar} (hn : '\n' ∉ v.name) (hv : '\n' ∉ v.value) :
    '\n' ∉ v.name ++ '=' :: v.value := by
  intro hmem
  rcases List.mem_append.mp hmem with h | h
  · exact hn h
  · rcases List.mem_cons.mp h with h | h
    · exact absurd h (by decide)
    · exact hv h

/-- A serialized record line is untouched by `stripCR` when the value
does not end in `'\r'` (its last character is then either the value's
last character or the `'='` separator). -/
theorem stripCR_line {v : EnvVar} (hr : v.value.getLast? ≠ some '\r') :
    stripCR (v.name ++ '=' :: v.value) = v.name ++ '=' :: v.value := by
  rw [stripCR, if_neg]
  rw [List.getLast?_append]
  rcases hval : v.value with _ | ⟨c, cs⟩
  · simp
  · rw [← hval]
    have : ('=' :: v.value).getLast? = v.value.getLast? := by
      rw [hval, List.getLast?_cons_cons]
    rw [this]
    have hvne : v.value.getLast?.isSome := by rw [hval]; simp [List.getLast?_cons]
    rcases hlast : v.value.getLast? with _ | w
    · rw [hlast] at hvne; simp at hvne
    · rw [hlast] at hr
      simpa using hr

/-- The function `rustLines` recovers exactly one line per record from the serialized
text, provided no field contains `'\n'` and no value ends in `'\r'`. -/
theorem rustLines_toText (vars : List EnvVar)
    (hn : ∀ v ∈ vars, '\n' ∉ v.name) (hv : ∀ v ∈ vars, '\n' ∉ v.value)
    (hr : ∀ v ∈ vars, v.value.getLast? ≠ some '\r') :
    rustLines (toText vars) = vars.map (fun v => v.name ++ '=' :: v.value) := by
  induction vars with
  | nil => rfl
  | cons v rest ih =>
    have hline : toText (v :: rest) = (v.name ++ '=' :: v.value) ++ '\n' :: toText rest := by
      simp [toText, List.append_assoc]
    rw [hline, rustLines_cons_line
        (no_newline_in_line (hn v (List.mem_cons_self v rest)) (hv v (List.mem_cons_self v rest)))
        (toText rest),
      stripCR_line (hr v (List.mem_cons_self v rest)), List.map_cons,
      ih (fun w hw => hn w (List.mem_cons_of_mem v hw))
         (fun w hw => hv w (List.mem_cons_of_mem v hw))
         (fun w hw => hr w (List.mem_cons_of_mem v hw))]

/-- Parsing the serialized lines recovers the records in order, provided
no name and no value contains `'='`. -/
theorem parseLines_toLines (vars : List EnvVar)
    (hn : ∀ v ∈ vars, '=' ∉ v.name) (hv : ∀ v ∈ vars, '=' ∉ v.value) :
    ∀ i, parseLines i (vars.map fun v => v.name ++ '=' :: v.value) = .ok vars := by
  induction vars with
  | nil => intro i; rfl
  | cons v rest ih =>
    intro i
    have hparse : parseLine i (v.name ++ '=' :: v.value) = .ok v := by
      rw [parseLine, splitChar_sep_append v.value (hn v (List.mem_cons_self v rest)),
        splitChar_of_not_mem (hv v (List.mem_cons_self v rest))]
      exact envVarNew_ok (hn v (List.mem_cons_self v rest))
    rw [List.map_cons, parseLines, hparse,
      ih (fun w hw => hn w (List.mem_cons_of_mem v hw))
         (fun w hw => hv w (List.mem_cons_of_mem v hw)) (i + 1)]

/-! ## Claims C5 and C6 -/

/-- C5 (amended): the round trip holds for a sorted, duplicate-free
variable set whose values contain no `'='` and no `'\n'`, provided
additionally that no name contains `'\n'` and no value ends in `'\r'`
(the extra conditions the `BufRead::lines` CRLF handling forces). -/
theorem c5_round_trip (vars : List EnvVar)
    (hsort : List.Sorted nameLe vars)
    (_hnodup : (names vars).Nodup)
    (hname_eq : ∀ v ∈ vars, '=' ∉ v.name)
    (hname_nl : ∀ v ∈ vars, '\n' ∉ v.name)
    (hval_eq : ∀ v ∈ vars, '=' ∉ v.value)
    (hval_nl : ∀ v ∈ vars, '\n' ∉ v.value)
    (hval_cr : ∀ v ∈ vars, v.value.getLast? ≠ some '\r') :
    EnvVars.tryFromText (toText vars) = .ok vars := by
  rw [EnvVars.tryFromText, rustLines_toText vars hname_nl hval_nl hval_cr,
    parseLines_toLines vars hname_eq hval_eq 0]
  show Except.ok (EnvVars.sort vars) = Except.ok vars
  unfold EnvVars.sort
  rw [hsort.insertionSort_eq]

/-- Witness for C5 on the set `{A=x, B=y}`. -/
theorem c5_round_trip_witness :
    (List.Sorted nameLe [⟨['A'], ['x']⟩, (⟨['B'], ['y']⟩ : EnvVar)] ∧
      (names [⟨['A'], ['x']⟩, ⟨['B'], ['y']⟩]).Nodup) ∧
    EnvVars.tryFromText (toText [⟨['A'], ['x']⟩, ⟨['B'], ['y']⟩]) =
      .ok [⟨['A'], ['x']⟩, ⟨['B'], ['y']⟩] :=
  ⟨⟨by decide, by decide⟩,
   c5_round_trip _ (by decide) (by decide) (by decide) (by decide) (by decide)
     (by decide) (by decide)⟩

/-- Counterexample to C5 as stated: the singleton set `A=<CR>` satisfies
every hypothesis of the claim (sorted, duplicate-free, no `'='` in the
value, no `'\n'` in the value), yet parsing the serialized text yields
`A=` — the `'\r'` is consumed by the CRLF handling of `BufRead::lines` —
so the round trip fails. -/
theorem c5_round_trip_counterexample :
    (List.Sorted nameLe [(⟨['A'], ['\r']⟩ : EnvVar)] ∧
      (names [(⟨['A'], ['\r']⟩ : EnvVar)]).Nodup ∧
      (∀ v ∈ [(⟨['A'], ['\r']⟩ : EnvVar)], '=' ∉ v.name) ∧
      (∀ v ∈ [(⟨['A'], ['\r']⟩ : EnvVar)], '=' ∉ v.value) ∧
      (∀ v ∈ [(⟨['A'], ['\r']⟩ : EnvVar)], '\n' ∉ v.value)) ∧
    EnvVars.tryFromText (toText [(⟨['A'], ['\r']⟩ : EnvVar)]) ≠
      .ok [(⟨['A'], ['\r']⟩ : EnvVar)] :=
  ⟨⟨by decide, by decide, by decide, by decide, by decide⟩, by decide⟩

theorem parseLines_malformed (ls₂ : List Str) {bad : Str} (hbad : '=' ∉ bad) :
    ∀ (i : Nat) (ls₁ : List Str), (∀ l ∈ ls₁, '=' ∈ l) →
      parseLines i (ls₁ ++ bad :: ls₂) = .error (.malformedLine (i + ls₁.length)) := by
  intro i ls₁
  induction ls₁ generalizing i with
  | nil =>
    intro _
    rw [List.nil_append, parseLines, parseLine_of_not_mem i hbad]
    simp
  | cons l ls₁ ih =>
    intro hpre
    rw [List.cons_append, parseLines, parseLine_of_mem i (hpre l (List.mem_cons_self l ls₁)),
      ih (i + 1) (fun w hw => hpre w (List.mem_cons_of_mem l hw))]
    simp only [List.length_cons]
    congr 2
    omega

/-- C6: if any physical line lacks `'='` entirely, parsing fails with a
malformed-line error carrying the 0-based index of the first such line
(every earlier line contains `'='`), and no variable set is returned. -/
theorem c6_malformed_line (t : Str) (ls₁ ls₂ : List Str) (bad : Str)
    (hsplit : rustLines t = ls₁ ++ bad :: ls₂)
    (hbad : '=' ∉ bad) (hpre : ∀ l ∈ ls₁, '=' ∈ l) :
    EnvVars.tryFromText t = .error (.malformedLine ls₁.length) := by
  rw [EnvVars.tryFromText, hsplit, parseLines_malformed ls₂ hbad 0 ls₁ hpre, Nat.zero_add]

/-- Witness for C6 on the spec's example text `"KEY=VALUE\nBADLINE\n"`:
the failure references line index 1. -/
theorem c6_malformed_line_witness :
    (rustLines ['K', 'E', 'Y', '=', 'V', 'A', 'L', 'U', 'E', '\n',
                'B', 'A', 'D', 'L', 'I', 'N', 'E', '\n'] =
        [['K', 'E', 'Y', '=', 'V', 'A', 'L', 'U', 'E']] ++
          ['B', 'A', 'D', 'L', 'I', 'N', 'E'] :: [] ∧
      '=' ∉ (['B', 'A', 'D', 'L', 'I', 'N', 'E'] : Str)) ∧
    EnvVars.tryFromText ['K', 'E', 'Y', '=', 'V', 'A', 'L', 'U', 'E', '\n',
        'B', 'A', 'D', 'L', 'I', 'N', 'E', '\n'] = .error (.malformedLine 1) :=
  ⟨⟨by decide, by decide⟩,
   c6_malformed_line _ [['K', 'E', 'Y', '=', 'V', 'A', 'L', 'U', 'E']] []
     ['B', 'A', 'D', 'L', 'I', 'N', 'E'] (by decide) (by decide) (by decide)⟩

/-! ## Claim C8: construction from pairs -/

theorem buildVars_ok {pairs : List (Str × Str)} (h : ∀ p ∈ pairs, '=' ∉ p.1) :
    buildVars pairs = .ok (pairs.map fun p => ⟨p.1, p.2⟩) := by
  induction pairs with
  | nil => rfl
  | cons p rest ih =>
    rcases p with ⟨n, v⟩
    rw [buildVars, envVarNew_ok (h _ (List.mem_cons_self _ rest)),
      ih (fun q hq => h q (List.mem_cons_of_mem _ hq))]
    rfl

theorem buildVars_err {pairs : List (Str × Str)} (h : ∃ p ∈ pairs, '=' ∈ p.1) :
    buildVars pairs = .error .nameValidation := by
  induction pairs with
  | nil => obtain ⟨p, hp, _⟩ := h; exact absurd hp (List.not_mem_nil p)
  | cons q rest ih =>
    rcases q with ⟨n, v⟩
    by_cases hn : '=' ∈ n
    · rw [buildVars, envVarNew_err hn]
    · have hrest : ∃ p ∈ rest, '=' ∈ p.1 := by
        obtain ⟨p, hp, hpe⟩ := h
        rcases List.mem_cons.mp hp with rfl | hp'
        · exact absurd hpe hn
        · exact ⟨p, hp', hpe⟩
      rw [buildVars, envVarNew_ok hn, ih hrest]

/-- C8: when no name contains `'='`, `EnvVars::try_from` over pairs
succeeds with exactly one record per input pair (a permutation of the
inputs — duplicates kept, values unmodified), sorted by name ascending;
when some name contains `'='`, the whole construction aborts with the
name-validation error and no partial set is returned. -/
theorem c8_from_pairs (pairs : List (Str × Str)) :
    ((∀ p ∈ pairs, '=' ∉ p.1) →
      ∃ l, EnvVars.tryFromPairs pairs = .ok l ∧
        l.Perm (pairs.map fun p => ⟨p.1, p.2⟩) ∧ List.Sorted nameLe l) ∧
    ((∃ p ∈ pairs, '=' ∈ p.1) →
      EnvVars.tryFromPairs pairs = .error .nameValidation) := by
  constructor
  · intro h
    refine ⟨EnvVars.sort (pairs.map fun p => ⟨p.1, p.2⟩), ?_, ?_, ?_⟩
    · rw [EnvVars.tryFromPairs, buildVars_ok h]
    · exact List.perm_insertionSort nameLe _
    · exact List.sorted_insertionSort nameLe _
  · intro h
    rw [EnvVars.tryFromPairs, buildVars_err h]

/-- Witness for C8 on the pair list `[(B, 2), (A, 1)]`. -/
theorem c8_from_pairs_witness :
    (∀ p ∈ [((['B'], ['2']) : Str × Str), (['A'], ['1'])], '=' ∉ p.1) ∧
    ∃ l, EnvVars.tryFromPairs [(['B'], ['2']), (['A'], ['1'])] = .ok l ∧
      l.Perm ([(['B'], ['2']), (['A'], ['1'])].map fun p => (⟨p.1, p.2⟩ : EnvVar)) ∧
      List.Sorted nameLe l :=
  ⟨by decide, (c8_from_pairs _).1 (by decide)⟩

/-! ## Association-list lemmas for the `diff` map -/

theorem alGet_alInsert_self (k : Str) (e : DiffEntry) (m : List (Str × DiffEntry)) :
    alGet k (alInsert k e m) = some e := by
  induction m with
  | nil => simp [alInsert, alGet]
  | cons p rest ih =>
    rcases p with ⟨k', e'⟩
    by_cases h : k' = k
    · subst h; simp [alInsert, alGet]
    · simp [alInsert, alGet, h, ih]

theorem alGet_alInsert_ne {k k' : Str} (h : k' ≠ k) (e : DiffEntry)
    (m : List (Str × DiffEntry)) : alGet k' (alInsert k e m) = alGet k' m := by
  induction m with
  | nil => simp [alInsert, alGet, Ne.symm h]
  | cons p rest ih =>
    rcases p with ⟨k₀, e₀⟩
    by_cases h₀ : k₀ = k
    · subst h₀
      simp [alInsert, alGet, Ne.symm h]
    · simp [alInsert, alGet, h₀, ih]

theorem mem_alInsert {p : Str × DiffEntry} {k : Str} {e : DiffEntry}
    {m : List (Str × DiffEntry)} (h : p ∈ alInsert k e m) : p = (k, e) ∨ p ∈ m := by
  induction m with
  | nil => simpa [alInsert] using h
  | cons q rest ih =>
    rcases q with ⟨k₀, e₀⟩
    by_cases h₀ : k₀ = k
    · subst h₀
      simp only [alInsert, if_pos rfl] at h
      rcases List.mem_cons.mp h with rfl | h'
      · exact Or.inl rfl
      · exact Or.inr (List.mem_cons_of_mem _ h')
    · simp only [alInsert, if_neg h₀] at h
      rcases List.mem_cons.mp h with rfl | h'
      · exact Or.inr (List.mem_cons_self _ _)
      · rcases ih h' with h'' | h''
        · exact Or.inl h''
        · exact Or.inr (List.mem_cons_of_mem _ h'')

theorem alGet_mem {k : Str} {m : List (Str × DiffEntry)} {e : DiffEntry}
    (h : alGet k m = some e) : (k, e) ∈ m := by
  induction m with
  | nil => simp [alGet] at h
  | cons q rest ih =>
    rcases q with ⟨k₀, e₀⟩
    by_cases h₀ : k₀ = k
    · subst h₀
      rw [alGet, if_pos rfl] at h
      injection h with h
      exact h ▸ List.mem_cons_self _ _
    · rw [alGet, if_neg h₀] at h
      exact List.mem_cons_of_mem _ (ih h)

theorem map_fst_alInsert (k : Str) (e : DiffEntry) (m : List (Str × DiffEntry)) :
    (alInsert k e m).map Prod.fst =
      if k ∈ m.map Prod.fst then m.map Prod.fst else m.map Prod.fst ++ [k] := by
  induction m with
  | nil => simp [alInsert]
  | cons q rest ih =>
    rcases q with ⟨k₀, e₀⟩
    by_cases h₀ : k₀ = k
    · subst h₀
      rw [alInsert, if_pos rfl, List.map_cons, List.map_cons,
        if_pos (List.mem_cons_self _ _)]
    · rw [alInsert, if_neg h₀, List.map_cons, ih, List.map_cons]
      by_cases hmem : k ∈ rest.map Prod.fst
      · rw [if_pos hmem, if_pos (List.mem_cons_of_mem _ hmem)]
      · rw [if_neg hmem, if_neg (by
          intro hk
          rcases List.mem_cons.mp hk with hk | hk
          · exact h₀ hk.symm
          · exact hmem hk), List.cons_append]

theorem mem_map_fst_alInsert {k' k : Str} {e : DiffEntry} {m : List (Str × DiffEntry)} :
    k' ∈ (alInsert k e m).map Prod.fst ↔ k' = k ∨ k' ∈ m.map Prod.fst := by
  rw [map_fst_alInsert]
  by_cases hmem : k ∈ m.map Prod.fst
  · rw [if_pos hmem]
    constructor
    · exact Or.inr
    · rintro (rfl | h)
      · exact hmem
      · exact h
  · rw [if_neg hmem, List.mem_append, List.mem_singleton]
    exact or_comm

theorem nodup_map_fst_alInsert {k : Str} {e : DiffEntry} {m : List (Str × DiffEntry)}
    (h : (m.map Prod.fst).Nodup) : ((alInsert k e m).map Prod.fst).Nodup := by
  rw [map_fst_alInsert]
  by_cases hmem : k ∈ m.map Prod.fst
  · rwa [if_pos hmem]
  · rw [if_neg hmem, ← List.concat_eq_append]
    exact h.concat hmem

/-! ## Lemmas about `envLookup` and `lastVal` -/

theorem lastVal_eq_none {n : Str} {vs : List EnvVar} :
    lastVal n vs = none ↔ n ∉ names vs := by
  induction vs with
  | nil => simp [lastVal, names]
  | cons v rest ih =>
    rcases hl : lastVal n rest with _ | w
    · by_cases hv : v.name = n
      · simp [lastVal, hl, hv, names]
      · simp only [lastVal, hl, if_neg hv, names, List.map_cons, List.mem_cons]
        rw [names] at ih
        simp [ih.mp hl, Ne.symm hv]
    · simp only [lastVal, hl, names, List.map_cons, List.mem_cons]
      constructor
      · intro h; cases h
      · intro h
        exact absurd (ih.mpr (fun hm => h (Or.inr hm))) (by rw [hl]; simp)

theorem envLookup_eq_none {n : Str} {vs : List EnvVar} :
    envLookup n vs = none ↔ n ∉ names vs := by
  induction vs with
  | nil => simp [envLookup, names]
  | cons v rest ih =>
    by_cases hv : v.name = n
    · simp [envLookup, hv, names]
    · simp only [envLookup, if_neg hv, names, List.map_cons, List.mem_cons]
      rw [names] at ih
      rw [ih]
      simp [Ne.symm hv]

theorem lastVal_eq_envLookup {n : Str} {vs : List EnvVar} (h : (names vs).Nodup) :
    lastVal n vs = envLookup n vs := by
  induction vs with
  | nil => rfl
  | cons v rest ih =>
    have hnd : v.name ∉ names rest ∧ (names rest).Nodup := by
      simpa [names] using h
    by_cases hv : v.name = n
    · have hnone : lastVal n rest = none := lastVal_eq_none.mpr (hv ▸ hnd.1)
      rw [lastVal, hnone, envLookup, if_pos hv, if_pos hv]
    · have hr : envLookup n (v :: rest) = envLookup n rest := by
        rw [envLookup, if_neg hv]
      rw [lastVal, ih hnd.2, hr]
      rcases envLookup n rest with _ | w
      · rw [if_neg hv]
      · rfl

/-! ## The first loop of `diff` -/

theorem diffNewLoop_get (vs : List EnvVar) :
    ∀ (m : List (Str × DiffEntry)) (n : Str),
      alGet n (diffNewLoop m vs) =
        match lastVal n vs with
        | some w => some ⟨n, .added, none, some w⟩
        | none => alGet n m := by
  induction vs with
  | nil => intro m n; rfl
  | cons v rest ih =>
    intro m n
    rcases hl : lastVal n rest with _ | w
    · by_cases hv : v.name = n
      · subst hv
        have hlv : lastVal v.name (v :: rest) = some v.value := by
          rw [lastVal, hl, if_pos rfl]
        simp only [diffNewLoop, ih, hl, hlv, alGet_alInsert_self]
      · have hnv : n ≠ v.name := Ne.symm hv
        have hlv : lastVal n (v :: rest) = none := by rw [lastVal, hl, if_neg hv]
        simp only [diffNewLoop, ih, hl, hlv, alGet_alInsert_ne hnv]
    · have hlv : lastVal n (v :: rest) = some w := by rw [lastVal, hl]
      simp only [diffNewLoop, ih, hl, hlv]

/-! ## The second loop of `diff` -/

theorem diffOldLoop_get_not_mem (vs : List EnvVar) :
    ∀ (m m' : List (Str × DiffEntry)) (n : Str),
      diffOldLoop m vs = some m' → n ∉ names vs → alGet n m' = alGet n m := by
  induction vs with
  | nil =>
    intro m m' n h _
    injection h with h
    rw [h]
  | cons v rest ih =>
    intro m m' n h hn
    have hvn : n ≠ v.name := by
      intro hh
      exact hn (by rw [names, List.map_cons, hh]; exact List.mem_cons_self _ _)
    have hn' : n ∉ names rest := by
      intro hh
      exact hn (by rw [names, List.map_cons]; exact List.mem_cons_of_mem _ hh)
    rw [diffOldLoop] at h
    rcases hg : alGet v.name m with _ | e
    · simp only [hg] at h
      rw [ih _ _ _ h hn', alGet_alInsert_ne hvn]
    · simp only [hg] at h
      rcases hnv : e.new_value with _ | nv
      · simp only [hnv] at h
        exact Option.noConfusion h
      · simp only [hnv] at h
        rw [ih _ _ _ h hn', alGet_alInsert_ne hvn]

theorem diffOldLoop_get_some (vs : List EnvVar) :
    ∀ (m m' : List (Str × DiffEntry)) (n : Str) (e : DiffEntry) (nv : Str),
      diffOldLoop m vs = some m' → alGet n m = some e → e.new_value = some nv →
      alGet n m' = some (match lastVal n vs with
        | some w =>
            { e with
                old_value := some w,
                state := if w = nv then .unchanged else .modified }
        | none => e) := by
  induction vs with
  | nil =>
    intro m m' n e nv h hget _
    injection h with h
    rw [← h, hget]
    rfl
  | cons v rest ih =>
    intro m m' n e nv h hget hnv
    rw [diffOldLoop] at h
    rcases hg : alGet v.name m with _ | e'
    · simp only [hg] at h
      have hvn : n ≠ v.name := by
        rintro rfl
        rw [hget] at hg
        cases hg
      have hlswitch : lastVal n (v :: rest) = lastVal n rest := by
        rw [lastVal]
        rcases lastVal n rest with _ | w
        · rw [if_neg (Ne.symm hvn)]
        · rfl
      have h2 : alGet n (alInsert v.name ⟨v.name, .deleted, some v.value, none⟩ m) = some e := by
        rw [alGet_alInsert_ne hvn, hget]
      rw [ih _ _ _ _ _ h h2 hnv, hlswitch]
    · simp only [hg] at h
      rcases hnv' : e'.new_value with _ | nv'
      · simp only [hnv'] at h
        exact Option.noConfusion h
      · simp only [hnv'] at h
        by_cases hvn : n = v.name
        · subst hvn
          rw [hget] at hg
          injection hg with hg
          subst hg
          rw [hnv] at hnv'
          injection hnv' with hnv'
          subst hnv'
          have h2 : alGet v.name (alInsert v.name
              { e with
                  old_value := some v.value,
                  state := if v.value = nv then .unchanged else .modified,
                  new_value := some nv } m) =
              some
              { e with
                  old_value := some v.value,
                  state := if v.value = nv then .unchanged else .modified,
                  new_value := some nv } :=
            alGet_alInsert_self _ _ _
          rw [ih _ _ _ _ _ h h2 rfl]
          rcases hl : lastVal v.name rest with _ | w
          · have hlv : lastVal v.name (v :: rest) = some v.value := by
              rw [lastVal, hl, if_pos rfl]
            rw [hlv, hnv]
          · have hlv : lastVal v.name (v :: rest) = some w := by
              rw [lastVal, hl]
            rw [hlv, hnv]
        · have hlswitch : lastVal n (v :: rest) = lastVal n rest := by
            rw [lastVal]
            rcases lastVal n rest with _ | w
            · rw [if_neg (Ne.symm hvn)]
            · rfl
          have h2 : alGet n (alInsert v.name
              { e' with
                  old_value := some v.value,
                  state := if v.value = nv' then .unchanged else .modified,
                  new_value := some nv' } m) =
              some e := by
            rw [alGet_alInsert_ne hvn, hget]
          rw [ih _ _ _ _ _ h h2 hnv, hlswitch]

theorem diffOldLoop_get_none (vs : List EnvVar) :
    ∀ (m m' : List (Str × DiffEntry)) (n : Str),
      diffOldLoop m vs = some m' → alGet n m = none → (names vs).Nodup →
      alGet n m' = match envLookup n vs with
        | some w => some ⟨n, .deleted, some w, none⟩
        | none => none := by
  induction vs with
  | nil =>
    intro m m' n h hget _
    injection h with h
    rw [← h, hget]
    rfl
  | cons v rest ih =>
    intro m m' n h hget hnd
    have hnd' : v.name ∉ names rest ∧ (names rest).Nodup := by
      simpa [names] using hnd
    rw [diffOldLoop] at h
    rcases hg : alGet v.name m with _ | e'
    · simp only [hg] at h
      by_cases hvn : n = v.name
      · subst hvn
        have h2 := diffOldLoop_get_not_mem rest _ _ v.name h hnd'.1
        rw [h2, alGet_alInsert_self]
        have hlook : envLookup v.name (v :: rest) = some v.value := by
          rw [envLookup, if_pos rfl]
        rw [hlook]
      · have h2 : alGet n (alInsert v.name ⟨v.name, .deleted, some v.value, none⟩ m) =
            none := by
          rw [alGet_alInsert_ne hvn, hget]
        have hlook : envLookup n (v :: rest) = envLookup n rest := by
          rw [envLookup, if_neg (Ne.symm hvn)]
        rw [ih _ _ _ h h2 hnd'.2, hlook]
    · simp only [hg] at h
      rcases hnv' : e'.new_value with _ | nv'
      · simp only [hnv'] at h
        exact Option.noConfusion h
      · simp only [hnv'] at h
        have hvn : n ≠ v.name := by
          rintro rfl
          rw [hget] at hg
          cases hg
        have h2 : alGet n (alInsert v.name
            { e' with
                old_value := some v.value,
                state := if v.value = nv' then .unchanged else .modified,
                new_value := some nv' } m) = none := by
          rw [alGet_alInsert_ne hvn, hget]
        have hlook : envLookup n (v :: rest) = envLookup n rest := by
          rw [envLookup, if_neg (Ne.symm hvn)]
        rw [ih _ _ _ h h2 hnd'.2, hlook]

theorem diffOldLoop_success (vs : List EnvVar) :
    ∀ m : List (Str × DiffEntry), (names vs).Nodup →
      (∀ k e, alGet k m = some e → e.new_value = none → k ∉ names vs) →
      ∃ m', diffOldLoop m vs = some m' := by
  induction vs with
  | nil => intro m _ _; exact ⟨m, rfl⟩
  | cons v rest ih =>
    intro m hnd hinv
    have hnd' : v.name ∉ names rest ∧ (names rest).Nodup := by
      simpa [names] using hnd
    rcases hg : alGet v.name m with _ | e
    · have hinv' : ∀ k e',
          alGet k (alInsert v.name ⟨v.name, .deleted, some v.value, none⟩ m) = some e' →
          e'.new_value = none → k ∉ names rest := by
        intro k e' hk hke
        by_cases hkv : k = v.name
        · subst hkv
          exact hnd'.1
        · rw [alGet_alInsert_ne hkv] at hk
          intro hmem
          exact hinv k e' hk hke (by rw [names, List.map_cons]; exact List.mem_cons_of_mem _ hmem)
      obtain ⟨m', hm'⟩ := ih _ hnd'.2 hinv'
      refine ⟨m', ?_⟩
      rw [diffOldLoop]
      simp only [hg]
      exact hm'
    · rcases hnv : e.new_value with _ | nv
      · exact absurd (hinv v.name e hg hnv)
          (by rw [names, List.map_cons]; simp [List.mem_cons_self])
      · have hinv' : ∀ k e',
            alGet k (alInsert v.name
              { e with
                  old_value := some v.value,
                  state := if v.value = nv then .unchanged else .modified,
                  new_value := some nv } m) = some e' →
            e'.new_value = none → k ∉ names rest := by
          intro k e' hk hke
          by_cases hkv : k = v.name
          · subst hkv
            rw [alGet_alInsert_self] at hk
            injection hk with hk
            have hke' : (some nv : Option Str) = none := by rw [← hk] at hke; exact hke
            exact Option.noConfusion hke'
          · rw [alGet_alInsert_ne hkv] at hk
            intro hmem
            exact hinv k e' hk hke
              (by rw [names, List.map_cons]; exact List.mem_cons_of_mem _ hmem)
        obtain ⟨m', hm'⟩ := ih _ hnd'.2 hinv'
        refine ⟨m', ?_⟩
        rw [diffOldLoop]
        simp only [hg, hnv]
        exact hm'

/-- An entry reachable by lookup in the final map is in the sorted entry
list `diff` returns. -/
theorem mem_diff_of_alGet {m : List (Str × DiffEntry)} {n : Str} {e : DiffEntry}
    (h : alGet n m = some e) :
    e ∈ List.insertionSort entryLe (m.map Prod.snd) :=
  (List.mem_insertionSort entryLe).mpr (List.mem_map_of_mem Prod.snd (alGet_mem h))

/-! ## Claims C1 and C3 -/

/-- C1: for duplicate-free variable sets, `diff` succeeds and classifies
every name by the correctness table: only in `new` ⇒ `Added`; only in
`old` ⇒ `Deleted`; in both ⇒ `Unchanged` when the values are exactly
equal and `Modified` otherwise (plain equality of the value strings, no
trimming or normalization). -/
theorem c1_diff_classification (old new : List EnvVar)
    (hold : (names old).Nodup) (hnew : (names new).Nodup) :
    ∃ l, diff old new = some l ∧
      (∀ n v, envLookup n new = some v → envLookup n old = none →
        ∃ e, e ∈ l ∧ e.name = n ∧ e.state = DiffState.added) ∧
      (∀ n v, envLookup n old = some v → envLookup n new = none →
        ∃ e, e ∈ l ∧ e.name = n ∧ e.state = DiffState.deleted) ∧
      (∀ n u v, envLookup n old = some u → envLookup n new = some v →
        ∃ e, e ∈ l ∧ e.name = n ∧
          e.state = (if u = v then DiffState.unchanged else DiffState.modified)) := by
  have hm0 : ∀ n, alGet n (diffNewLoop [] new) =
      match lastVal n new with
      | some w => some ⟨n, .added, none, some w⟩
      | none => none := by
    intro n
    rw [diffNewLoop_get new [] n]
    rcases lastVal n new with _ | w <;> rfl
  have hinv : ∀ k e, alGet k (diffNewLoop [] new) = some e → e.new_value = none →
      k ∉ names old := by
    intro k e hk hke
    rw [hm0 k] at hk
    rcases hl : lastVal k new with _ | w
    · rw [hl] at hk
      exact Option.noConfusion hk
    · rw [hl] at hk
      injection hk with hk
      rw [← hk] at hke
      exact Option.noConfusion hke
  obtain ⟨m₁, hm₁⟩ := diffOldLoop_success old _ hold hinv
  refine ⟨List.insertionSort entryLe (m₁.map Prod.snd), ?_, ?_, ?_, ?_⟩
  · unfold diff
    rw [hm₁]
  · intro n v hvnew hvold
    have hlast : lastVal n new = some v := by rw [lastVal_eq_envLookup hnew, hvnew]
    have hg0 : alGet n (diffNewLoop [] new) = some ⟨n, .added, none, some v⟩ := by
      rw [hm0 n, hlast]
    have hlold : lastVal n old = none :=
      lastVal_eq_none.mpr (envLookup_eq_none.mp hvold)
    have hfin := diffOldLoop_get_some old _ _ n _ v hm₁ hg0 rfl
    rw [hlold] at hfin
    exact ⟨_, mem_diff_of_alGet hfin, rfl, rfl⟩
  · intro n v hvold hvnew
    have hg0 : alGet n (diffNewLoop [] new) = none := by
      rw [hm0 n, lastVal_eq_none.mpr (envLookup_eq_none.mp hvnew)]
    have hfin := diffOldLoop_get_none old _ _ n hm₁ hg0 hold
    rw [hvold] at hfin
    exact ⟨_, mem_diff_of_alGet hfin, rfl, rfl⟩
  · intro n u v hvold hvnew
    have hlastnew : lastVal n new = some v := by rw [lastVal_eq_envLookup hnew, hvnew]
    have hg0 : alGet n (diffNewLoop [] new) = some ⟨n, .added, none, some v⟩ := by
      rw [hm0 n, hlastnew]
    have hlastold : lastVal n old = some u := by rw [lastVal_eq_envLookup hold, hvold]
    have hfin := diffOldLoop_get_some old _ _ n _ v hm₁ hg0 rfl
    rw [hlastold] at hfin
    exact ⟨_, mem_diff_of_alGet hfin, rfl, rfl⟩

/-- Witness for C1 on the spec's example: old `{GONE=o, KEY=V}`, new
`{KEY=V, NEW=x}`. -/
theorem c1_diff_classification_witness :
    ((names [⟨['G'], ['o']⟩, (⟨['K'], ['V']⟩ : EnvVar)]).Nodup ∧
      (names [⟨['K'], ['V']⟩, (⟨['N'], ['x']⟩ : EnvVar)]).Nodup) ∧
    (∃ l, diff [⟨['G'], ['o']⟩, ⟨['K'], ['V']⟩] [⟨['K'], ['V']⟩, ⟨['N'], ['x']⟩] = some l ∧
      (∀ n v, envLookup n [⟨['K'], ['V']⟩, ⟨['N'], ['x']⟩] = some v →
        envLookup n [⟨['G'], ['o']⟩, ⟨['K'], ['V']⟩] = none →
        ∃ e, e ∈ l ∧ e.name = n ∧ e.state = DiffState.added) ∧
      (∀ n v, envLookup n [⟨['G'], ['o']⟩, ⟨['K'], ['V']⟩] = some v →
        envLookup n [⟨['K'], ['V']⟩, ⟨['N'], ['x']⟩] = none →
        ∃ e, e ∈ l ∧ e.name = n ∧ e.state = DiffState.deleted) ∧
      (∀ n u v, envLookup n [⟨['G'], ['o']⟩, ⟨['K'], ['V']⟩] = some u →
        envLookup n [⟨['K'], ['V']⟩, ⟨['N'], ['x']⟩] = some v →
        ∃ e, e ∈ l ∧ e.name = n ∧
          e.state = (if u = v then DiffState.unchanged else DiffState.modified))) :=
  ⟨⟨by decide, by decide⟩, c1_diff_classification _ _ (by decide) (by decide)⟩

/-- C3 (amended): old-set duplicates of a name that is present in the
new set collapse to a single entry with the later old occurrence's value
winning as `old_value` (and the state computed from that value); the
collapse does NOT extend to duplicated old names absent from the new
set — there the `unwrap` of the absent `new_value` panics (see the
counterexample). -/
theorem c3_old_dup_collapse (old new : List EnvVar) (l : List DiffEntry) (n v nv : Str)
    (h : diff old new = some l)
    (hvo : lastVal n old = some v) (hvn : lastVal n new = some nv) :
    ∃ e, e ∈ l ∧ e.name = n ∧ e.old_value = some v ∧ e.new_value = some nv ∧
      e.state = (if v = nv then DiffState.unchanged else DiffState.modified) := by
  unfold diff at h
  rcases hold : diffOldLoop (diffNewLoop [] new) old with _ | m
  · rw [hold] at h
    exact Option.noConfusion h
  · rw [hold] at h
    injection h with h
    subst h
    have hg0 : alGet n (diffNewLoop [] new) = some ⟨n, .added, none, some nv⟩ := by
      rw [diffNewLoop_get new [] n, hvn]
    have hfin := diffOldLoop_get_some old _ _ n _ nv hold hg0 rfl
    rw [hvo] at hfin
    exact ⟨_, mem_diff_of_alGet hfin, rfl, rfl, rfl, rfl⟩

/-- Witness for C3: old `{A=1, A=2}` (duplicate), new `{A=3}`; the
duplicates collapse and the second old value `2` wins. -/
theorem c3_old_dup_collapse_witness :
    (diff [⟨['A'], ['1']⟩, ⟨['A'], ['2']⟩] [⟨['A'], ['3']⟩] =
        some [⟨['A'], .modified, some ['2'], some ['3']⟩] ∧
      lastVal ['A'] [⟨['A'], ['1']⟩, ⟨['A'], ['2']⟩] = some ['2'] ∧
      lastVal ['A'] [⟨['A'], ['3']⟩] = some ['3']) ∧
    ∃ e, e ∈ [(⟨['A'], .modified, some ['2'], some ['3']⟩ : DiffEntry)] ∧
      e.name = ['A'] ∧ e.old_value = some ['2'] ∧ e.new_value = some ['3'] ∧
      e.state = (if (['2'] : Str) = ['3'] then DiffState.unchanged else DiffState.modified) :=
  ⟨⟨by decide, by decide, by decide⟩,
   c3_old_dup_collapse [⟨['A'], ['1']⟩, ⟨['A'], ['2']⟩] [⟨['A'], ['3']⟩]
     [⟨['A'], .modified, some ['2'], some ['3']⟩] ['A'] ['2'] ['3']
     (by decide) (by decide) (by decide)⟩

/-- Counterexample to C3 as stated: for old `{A=1, A=2}` and an empty
new set — a duplicated old name absent from the new set — `diff` does
not collapse the occurrences; the second occurrence reaches
`entry.new_value.as_deref().unwrap()` with `new_value` absent and
panics (`diff` returns no entry list at all). -/
theorem c3_old_dup_counterexample :
    diff [⟨['A'], ['1']⟩, ⟨['A'], ['2']⟩] [] = none ∧
    ¬ ∃ l, diff [⟨['A'], ['1']⟩, ⟨['A'], ['2']⟩] [] = some l := by
  refine ⟨by decide, ?_⟩
  rintro ⟨l, hl⟩
  rw [show diff [⟨['A'], ['1']⟩, ⟨['A'], ['2']⟩] [] = none by decide] at hl
  exact Option.noConfusion hl

/-! ## Claim C9: state/value consistency -/

theorem diffNewLoop_consistent (vs : List EnvVar) :
    ∀ m, (∀ p ∈ m, ((p : Str × DiffEntry).2.state = DiffState.added →
          p.2.old_value = none ∧ p.2.new_value ≠ none) ∧
        (p.2.state = DiffState.deleted → p.2.new_value = none ∧ p.2.old_value ≠ none) ∧
        ((p.2.state = DiffState.unchanged ∨ p.2.state = DiffState.modified) →
          p.2.old_value ≠ none ∧ p.2.new_value ≠ none)) →
      ∀ p ∈ diffNewLoop m vs,
        (p.2.state = DiffState.added → p.2.old_value = none ∧ p.2.new_value ≠ none) ∧
        (p.2.state = DiffState.deleted → p.2.new_value = none ∧ p.2.old_value ≠ none) ∧
        ((p.2.state = DiffState.unchanged ∨ p.2.state = DiffState.modified) →
          p.2.old_value ≠ none ∧ p.2.new_value ≠ none) := by
  induction vs with
  | nil => intro m hm; exact hm
  | cons v rest ih =>
    intro m hm
    refine ih _ ?_
    intro p hp
    rcases mem_alInsert hp with rfl | hp'
    · simp
    · exact hm p hp'

theorem diffOldLoop_consistent (vs : List EnvVar) :
    ∀ m m', diffOldLoop m vs = some m' →
      (∀ p ∈ m, ((p : Str × DiffEntry).2.state = DiffState.added →
            p.2.old_value = none ∧ p.2.new_value ≠ none) ∧
          (p.2.state = DiffState.deleted → p.2.new_value = none ∧ p.2.old_value ≠ none) ∧
          ((p.2.state = DiffState.unchanged ∨ p.2.state = DiffState.modified) →
            p.2.old_value ≠ none ∧ p.2.new_value ≠ none)) →
      ∀ p ∈ m',
        (p.2.state = DiffState.added → p.2.old_value = none ∧ p.2.new_value ≠ none) ∧
        (p.2.state = DiffState.deleted → p.2.new_value = none ∧ p.2.old_value ≠ none) ∧
        ((p.2.state = DiffState.unchanged ∨ p.2.state = DiffState.modified) →
          p.2.old_value ≠ none ∧ p.2.new_value ≠ none) := by
  induction vs with
  | nil =>
    intro m m' h hm
    injection h with h
    rw [← h]
    exact hm
  | cons v rest ih =>
    intro m m' h hm
    rw [diffOldLoop] at h
    rcases hg : alGet v.name m with _ | e
    · simp only [hg] at h
      refine ih _ _ h ?_
      intro p hp
      rcases mem_alInsert hp with rfl | hp'
      · simp
      · exact hm p hp'
    · simp only [hg] at h
      rcases hnv : e.new_value with _ | nv
      · simp only [hnv] at h
        exact Option.noConfusion h
      · simp only [hnv] at h
        refine ih _ _ h ?_
        intro p hp
        rcases mem_alInsert hp with rfl | hp'
        · by_cases hc : v.value = nv <;> simp [hc]
        · exact hm p hp'

/-- C9: every entry produced by `diff` satisfies the state/value
consistency invariant of `DiffEntry`: `Added` entries have no old value
and a new value; `Deleted` entries have no new value and an old value;
`Unchanged` and `Modified` entries have both. -/
theorem c9_state_value_invariant (old new : List EnvVar) (l : List DiffEntry)
    (h : diff old new = some l) :
    ∀ e ∈ l,
      (e.state = DiffState.added → e.old_value = none ∧ e.new_value ≠ none) ∧
      (e.state = DiffState.deleted → e.new_value = none ∧ e.old_value ≠ none) ∧
      ((e.state = DiffState.unchanged ∨ e.state = DiffState.modified) →
        e.old_value ≠ none ∧ e.new_value ≠ none) := by
  unfold diff at h
  rcases hold : diffOldLoop (diffNewLoop [] new) old with _ | m
  · rw [hold] at h
    exact Option.noConfusion h
  · rw [hold] at h
    injection h with h
    subst h
    intro e he
    obtain ⟨p, hp, hpe⟩ := List.mem_map.mp ((List.mem_insertionSort entryLe).mp he)
    have hcons := diffOldLoop_consistent old _ _ hold
      (diffNewLoop_consistent new [] (by simp)) p hp
    rw [← hpe]
    exact hcons

/-- Witness for C9 on old `{C=1}`, new `{}` (a `Deleted` entry). -/
theorem c9_state_value_invariant_witness :
    diff [⟨['C'], ['1']⟩] [] = some [⟨['C'], .deleted, some ['1'], none⟩] ∧
    ∀ e ∈ [(⟨['C'], .deleted, some ['1'], none⟩ : DiffEntry)],
      (e.state = DiffState.added → e.old_value = none ∧ e.new_value ≠ none) ∧
      (e.state = DiffState.deleted → e.new_value = none ∧ e.old_value ≠ none) ∧
      ((e.state = DiffState.unchanged ∨ e.state = DiffState.modified) →
        e.old_value ≠ none ∧ e.new_value ≠ none) :=
  ⟨by decide,
   c9_state_value_invariant [⟨['C'], ['1']⟩] []
     [⟨['C'], .deleted, some ['1'], none⟩] (by decide)⟩

/-! ## Claim C2: totality of the diff (for non-panicking runs) -/

theorem diffNewLoop_entry_names (vs : List EnvVar) :
    ∀ m, (∀ p ∈ m, (p : Str × DiffEntry).2.name = p.1) →
      ∀ p ∈ diffNewLoop m vs, (p : Str × DiffEntry).2.name = p.1 := by
  induction vs with
  | nil => intro m hm; exact hm
  | cons v rest ih =>
    intro m hm
    refine ih _ ?_
    intro p hp
    rcases mem_alInsert hp with rfl | hp'
    · rfl
    · exact hm p hp'

theorem diffOldLoop_entry_names (vs : List EnvVar) :
    ∀ m m', diffOldLoop m vs = some m' →
      (∀ p ∈ m, (p : Str × DiffEntry).2.name = p.1) →
      ∀ p ∈ m', (p : Str × DiffEntry).2.name = p.1 := by
  induction vs with
  | nil =>
    intro m m' h hm
    injection h with h
    rw [← h]
    exact hm
  | cons v rest ih =>
    intro m m' h hm
    rw [diffOldLoop] at h
    rcases hg : alGet v.name m with _ | e
    · simp only [hg] at h
      refine ih _ _ h ?_
      intro p hp
      rcases mem_alInsert hp with rfl | hp'
      · rfl
      · exact hm p hp'
    · simp only [hg] at h
      rcases hnv : e.new_value with _ | nv
      · simp only [hnv] at h
        exact Option.noConfusion h
      · simp only [hnv] at h
        refine ih _ _ h ?_
        intro p hp
        rcases mem_alInsert hp with rfl | hp'
        · exact hm (v.name, e) (alGet_mem hg)
        · exact hm p hp'

theorem diffNewLoop_keys_nodup (vs : List EnvVar) :
    ∀ m, ((m.map Prod.fst).Nodup) → (((diffNewLoop m vs).map Prod.fst).Nodup) := by
  induction vs with
  | nil => intro m hm; exact hm
  | cons v rest ih =>
    intro m hm
    exact ih _ (nodup_map_fst_alInsert hm)

theorem diffOldLoop_keys_nodup (vs : List EnvVar) :
    ∀ m m', diffOldLoop m vs = some m' →
      (m.map Prod.fst).Nodup → (m'.map Prod.fst).Nodup := by
  induction vs with
  | nil =>
    intro m m' h hm
    injection h with h
    rw [← h]
    exact hm
  | cons v rest ih =>
    intro m m' h hm
    rw [diffOldLoop] at h
    rcases hg : alGet v.name m with _ | e
    · simp only [hg] at h
      exact ih _ _ h (nodup_map_fst_alInsert hm)
    · simp only [hg] at h
      rcases hnv : e.new_value with _ | nv
      · simp only [hnv] at h
        exact Option.noConfusion h
      · simp only [hnv] at h
        exact ih _ _ h (nodup_map_fst_alInsert hm)

theorem diffNewLoop_mem_keys (vs : List EnvVar) :
    ∀ m k, k ∈ (diffNewLoop m vs).map Prod.fst ↔ k ∈ m.map Prod.fst ∨ k ∈ names vs := by
  induction vs with
  | nil =>
    intro m k
    exact ⟨Or.inl, fun hk => hk.resolve_right (List.not_mem_nil k)⟩
  | cons v rest ih =>
    intro m k
    rw [show diffNewLoop m (v :: rest) =
        diffNewLoop (alInsert v.name ⟨v.name, .added, none, some v.value⟩ m) rest from rfl,
      ih, mem_map_fst_alInsert]
    constructor
    · rintro ((rfl | hk) | hk)
      · exact Or.inr (by rw [names, List.map_cons]; exact List.mem_cons_self _ _)
      · exact Or.inl hk
      · exact Or.inr (by rw [names, List.map_cons]; exact List.mem_cons_of_mem _ hk)
    · rintro (hk | hk)
      · exact Or.inl (Or.inr hk)
      · rw [names, List.map_cons] at hk
        rcases List.mem_cons.mp hk with rfl | hk
        · exact Or.inl (Or.inl rfl)
        · exact Or.inr (by rw [names]; exact hk)

theorem diffOldLoop_mem_keys (vs : List EnvVar) :
    ∀ m m' k, diffOldLoop m vs = some m' →
      (k ∈ m'.map Prod.fst ↔ k ∈ m.map Prod.fst ∨ k ∈ names vs) := by
  induction vs with
  | nil =>
    intro m m' k h
    injection h with h
    rw [← h]
    exact ⟨Or.inl, fun hk => hk.resolve_right (List.not_mem_nil k)⟩
  | cons v rest ih =>
    intro m m' k h
    rw [diffOldLoop] at h
    rcases hg : alGet v.name m with _ | e
    · simp only [hg] at h
      rw [ih _ _ _ h, mem_map_fst_alInsert]
      constructor
      · rintro ((rfl | hk) | hk)
        · exact Or.inr (by rw [names, List.map_cons]; exact List.mem_cons_self _ _)
        · exact Or.inl hk
        · exact Or.inr (by rw [names, List.map_cons]; exact List.mem_cons_of_mem _ hk)
      · rintro (hk | hk)
        · exact Or.inl (Or.inr hk)
        · rw [names, List.map_cons] at hk
          rcases List.mem_cons.mp hk with rfl | hk
          · exact Or.inl (Or.inl rfl)
          · exact Or.inr (by rw [names]; exact hk)
    · simp only [hg] at h
      rcases hnv : e.new_value with _ | nv
      · simp only [hnv] at h
        exact Option.noConfusion h
      · simp only [hnv] at h
        have hvk : v.name ∈ m.map Prod.fst := List.mem_map_of_mem Prod.fst (alGet_mem hg)
        rw [ih _ _ _ h, mem_map_fst_alInsert]
        constructor
        · rintro ((rfl | hk) | hk)
          · exact Or.inl hvk
          · exact Or.inl hk
          · exact Or.inr (by rw [names, List.map_cons]; exact List.mem_cons_of_mem _ hk)
        · rintro (hk | hk)
          · exact Or.inl (Or.inr hk)
          · rw [names, List.map_cons] at hk
            rcases List.mem_cons.mp hk with rfl | hk
            · exact Or.inl (Or.inl rfl)
            · exact Or.inr (by rw [names]; exact hk)

/-- C2 (amended): whenever `diff` returns an entry list (no panic),
every name present in the old or the new set appears exactly once in it,
and no other name appears at all: the entry names are duplicate-free and
are exactly the names occurring in `old` or `new`. -/
theorem c2_each_name_once (old new : List EnvVar) (l : List DiffEntry)
    (h : diff old new = some l) :
    (l.map DiffEntry.name).Nodup ∧
    ∀ n, n ∈ l.map DiffEntry.name ↔ n ∈ names old ∨ n ∈ names new := by
  unfold diff at h
  rcases hold : diffOldLoop (diffNewLoop [] new) old with _ | m
  · rw [hold] at h
    exact Option.noConfusion h
  · rw [hold] at h
    injection h with h
    subst h
    have hperm : ((List.insertionSort entryLe (m.map Prod.snd)).map DiffEntry.name).Perm
        (m.map Prod.fst) := by
      have hnames : ∀ p ∈ m, (DiffEntry.name ∘ Prod.snd) p = Prod.fst p := by
        intro p hp
        exact diffOldLoop_entry_names old _ _ hold
          (diffNewLoop_entry_names new [] (by simp)) p hp
      have h1 := (List.perm_insertionSort entryLe (m.map Prod.snd)).map DiffEntry.name
      rw [List.map_map, List.map_congr_left hnames] at h1
      exact h1
    have hnodup : (m.map Prod.fst).Nodup :=
      diffOldLoop_keys_nodup old _ _ hold (diffNewLoop_keys_nodup new [] (by simp))
    refine ⟨hperm.nodup_iff.mpr hnodup, ?_⟩
    intro n
    rw [hperm.mem_iff, diffOldLoop_mem_keys old _ _ n hold, diffNewLoop_mem_keys new [] n]
    constructor
    · rintro ((hk | hk) | hk)
      · exact absurd hk (List.not_mem_nil n)
      · exact Or.inr hk
      · exact Or.inl hk
    · rintro (hk | hk)
      · exact Or.inr hk
      · exact Or.inl (Or.inr hk)

/-- Witness for C2 on old `{A=1}`, new `{}`. -/
theorem c2_each_name_once_witness :
    diff [⟨['A'], ['1']⟩] [] = some [⟨['A'], .deleted, some ['1'], none⟩] ∧
    ((([⟨['A'], .deleted, some ['1'], none⟩] : List DiffEntry).map DiffEntry.name).Nodup ∧
      ∀ n, n ∈ ([⟨['A'], .deleted, some ['1'], none⟩] : List DiffEntry).map DiffEntry.name ↔
        n ∈ names [⟨['A'], ['1']⟩] ∨ n ∈ names ([] : List EnvVar)) :=
  ⟨by decide,
   c2_each_name_once [⟨['A'], ['1']⟩] [] [⟨['A'], .deleted, some ['1'], none⟩] (by decide)⟩

/-- Counterexample to C2 as stated: for old `{B=1, B=2}` and an empty
new set, `diff` panics (the model returns `none`), so there is no
returned list in which the name `B` could appear exactly once — the
totality claim fails for this pair. -/
theorem c2_totality_counterexample :
    ¬ ∃ l, diff [⟨['B'], ['1']⟩, ⟨['B'], ['2']⟩] [] = some l ∧
      (['B'] : Str) ∈ l.map DiffEntry.name := by
  rintro ⟨l, hl, _⟩
  rw [show diff [⟨['B'], ['1']⟩, ⟨['B'], ['2']⟩] [] = none by decide] at hl
  exact Option.noConfusion hl

end EnvEdit
